import Mathlib

/-!
Verification of the `cacher` repository (src/cache/cache.go): an in-process,
bounded-capacity key/value cache with TTL expiration and capacity eviction.

The Go map `store map[string]entry` is modelled as an association list whose
order stands for one fixed iteration order of the map.  Go `time.Time` values
and `time.Duration` values are modelled as integers (readings of a monotone
clock).  Methods that call `time.Now()` take the reading `now` as an explicit
argument.  The goroutine running `ttlEnforcer` is modelled separately as a
counting function over its select loop (`ttlEnforcerRun`).
-/

namespace Cacher

/-- The `entry` struct of src/cache/cache.go: a value together with the
time it was last written by `Set`. -/
structure Entry (α : Type) where
  value : α
  time : Int
  deriving Repr, DecidableEq

/-- The `Cache` struct of src/cache/cache.go: the table `store`, the capacity
`size` and the time-to-live `ttl`.  The mutex and the cancellation handle have
no counterpart in the sequential model. -/
structure Cache (α : Type) where
  store : List (String × Entry α)
  size : Int
  ttl : Int
  deriving Repr, DecidableEq

variable {α : Type}

/-- Go map read `c.store[key]`: the entry stored under `key`, if any. -/
def storeLookup : List (String × Entry α) → String → Option (Entry α)
  | [], _ => none
  | (k', e) :: rest, k => if k' = k then some e else storeLookup rest k

/-- Go map write `c.store[key] = e`: replaces the entry when the key is
present, otherwise adds a binding for it. -/
def storeInsert : List (String × Entry α) → String → Entry α → List (String × Entry α)
  | [], k, e => [(k, e)]
  | (k', e') :: rest, k, e =>
      if k' = k then (k, e) :: rest else (k', e') :: storeInsert rest k e

/-- Go `delete(c.store, k)`: removes the binding for `k` when present,
otherwise does nothing. -/
def storeDelete : List (String × Entry α) → String → List (String × Entry α)
  | [], _ => []
  | (k', e) :: rest, k => if k' = k then rest else (k', e) :: storeDelete rest k

/-- `New(size, ttl)` (src/cache/cache.go lines 23-40): rejects `size <= 0` and
`ttl <= 0` with an error, otherwise returns the cache with an empty table.
The `go cache.ttlEnforcer(ctx)` statement sits after both validation returns,
on the success path only; the enforcer itself is modelled by
`ttlEnforcerRun` below. -/
def New (size ttl : Int) : Except String (Cache α) :=
  if size ≤ 0 then Except.error "size should be greater than zero"
  else if ttl ≤ 0 then Except.error "ttl should be greater than zero"
  else Except.ok { store := [], size := size, ttl := ttl }

/-- `Get(key)` (lines 46-54): under the read lock, `value, ok := c.store[key]`;
returns `(value.value, true)` on a hit and `(nil, false)` on a miss, modelled
as `Option α`.  The body writes nothing, so the cache comes back unchanged. -/
def Cache.getS (c : Cache α) (key : String) : Option α × Cache α :=
  match storeLookup c.store key with
  | some e => (some e.value, c)
  | none => (none, c)

/-- The result component of `Get`. -/
def Cache.get (c : Cache α) (key : String) : Option α :=
  (c.getS key).1

/-- Observer: the full stored entry (value and timestamp) under a key. -/
def Cache.getEntry (c : Cache α) (key : String) : Option (Entry α) :=
  storeLookup c.store key

/-- The scan loop of `evictLRU` (lines 84-89): starting from
`minTime, key := time.Now(), ""`, take each binding in iteration order and
update the pair whenever `v.time.Before(minTime)` (strict comparison). -/
def scanOldest : Int × String → List (String × Entry α) → Int × String
  | acc, [] => acc
  | acc, (k, v) :: rest =>
      if v.time < acc.1 then scanOldest (v.time, k) rest else scanOldest acc rest

/-- `evictLRU` (lines 83-91): scan the table for the entry with the oldest
write time, then `delete(c.store, key)` with the key found (which is `""`
when no entry is strictly older than `now`). -/
def Cache.evictLRU (c : Cache α) (now : Int) : Cache α :=
  { c with store := storeDelete c.store (scanOldest (now, "") c.store).2 }

/-- `Set(key, value)` (lines 56-68): under the write lock, evict one entry
when `len(c.store) == c.size`, then store `entry{value, time.Now()}` under
the key. -/
def Cache.set (c : Cache α) (key : String) (value : α) (now : Int) : Cache α :=
  let c1 := if (c.store.length : Int) = c.size then c.evictLRU now else c
  { c1 with store := storeInsert c1.store key { value := value, time := now } }

/-- `Keys()` (lines 70-81): the list of keys of the table, in iteration
order. -/
def Cache.keys (c : Cache α) : List String :=
  c.store.map Prod.fst

/-- `evictExpired` (lines 93-103): under the write lock, compute `now` and
delete every binding with `now.Sub(v.time) > c.ttl`. -/
def Cache.evictExpired (c : Cache α) (now : Int) : Cache α :=
  { c with store := c.store.filter (fun p => ! decide (now - p.2.time > c.ttl)) }

/-- The select loop of `ttlEnforcer` (lines 105-115), counting sweeps.
`timer := time.NewTimer(c.ttl)` arms a one-shot timer: its channel delivers
at most one tick, and no statement of the loop body resets it.  The argument
is whether a tick is still pending; each loop iteration that receives the
pending tick runs `evictExpired` once (counted as 1) and leaves the timer
spent, after which no iteration can receive a tick again. -/
def ttlEnforcerRun : Bool → Nat → Nat
  | _, 0 => 0
  | true, n + 1 => 1 + ttlEnforcerRun false n
  | false, n + 1 => ttlEnforcerRun false n

/-- Running a list of `Set` calls, each with its key, value and clock
reading. -/
def runSets (c : Cache α) : List (String × α × Int) → Cache α
  | [] => c
  | op :: rest => runSets (c.set op.1 op.2.1 op.2.2) rest

/-- Running a list of `Get` calls, keeping the cache state they leave. -/
def runGets (c : Cache α) : List String → Cache α
  | [] => c
  | k :: rest => runGets (c.getS k).2 rest

/-- Sample cache: one entry, capacity 2. -/
def cacheA : Cache Int :=
  { store := [("a", { value := 1, time := 0 })], size := 2, ttl := 9 }

/-- Sample cache: two entries, at its capacity 2. -/
def cacheAB : Cache Int :=
  { store := [("a", { value := 1, time := 0 }), ("b", { value := 2, time := 1 })], size := 2, ttl := 9 }

/-- Sample cache: two entries at capacity 2, ttl 100. -/
def cacheFull : Cache Int :=
  { store := [("a", { value := 7, time := 0 }), ("b", { value := 8, time := 1 })], size := 2, ttl := 100 }

/-- Sample cache: empty, capacity 2, ttl 100, as `New(2, 100)` returns it. -/
def cacheEmptyTwo : Cache Int :=
  { store := [], size := 2, ttl := 100 }

/-- Sample cache: one entry written at time 3, ttl 4. -/
def cacheBoundary : Cache Int :=
  { store := [("a", { value := 5, time := 3 })], size := 1, ttl := 4 }

/-! ### Lemmas about the modelled map operations -/

@[simp]
theorem storeLookup_nil (k : String) : storeLookup ([] : List (String × Entry α)) k = none := rfl

theorem storeLookup_insert_self (s : List (String × Entry α)) (k : String) (e : Entry α) :
    storeLookup (storeInsert s k e) k = some e := by
  induction s with
  | nil => simp [storeInsert, storeLookup]
  | cons p rest ih =>
    by_cases h : p.1 = k
    · simp [storeInsert, storeLookup, h]
    · simp [storeInsert, storeLookup, h, ih]

theorem storeLookup_insert_other (s : List (String × Entry α)) (k k' : String) (e : Entry α)
    (h : k' ≠ k) : storeLookup (storeInsert s k e) k' = storeLookup s k' := by
  have hne : ¬ k = k' := fun hk => h hk.symm
  induction s with
  | nil => simp [storeInsert, storeLookup, hne]
  | cons p rest ih =>
    by_cases hp : p.1 = k
    · simp [storeInsert, storeLookup, hp, hne]
    · by_cases hp' : p.1 = k'
      · simp [storeInsert, storeLookup, hp, hp', h, hne]
      · simp [storeInsert, storeLookup, hp, hp', ih]

theorem storeLookup_eq_none_iff (s : List (String × Entry α)) (k : String) :
    storeLookup s k = none ↔ k ∉ s.map Prod.fst := by
  induction s with
  | nil => simp
  | cons p rest ih =>
    by_cases hp : p.1 = k
    · simp [storeLookup, hp]
    · have hk : ¬ k = p.1 := fun hh => hp hh.symm
      rw [storeLookup, if_neg hp, ih]
      simp [hk]

theorem storeLookup_isSome_of_mem (s : List (String × Entry α)) (k : String)
    (h : k ∈ s.map Prod.fst) : ∃ e, storeLookup s k = some e := by
  rcases he : storeLookup s k with _ | e
  · exact absurd ((storeLookup_eq_none_iff s k).1 he) (by simpa using h)
  · exact ⟨e, rfl⟩

theorem keys_insert_of_mem (s : List (String × Entry α)) (k : String) (e : Entry α)
    (h : k ∈ s.map Prod.fst) :
    (storeInsert s k e).map Prod.fst = s.map Prod.fst := by
  induction s with
  | nil => simp at h
  | cons p rest ih =>
    by_cases hp : p.1 = k
    · simp [storeInsert, hp]
    · simp only [List.map_cons, List.mem_cons] at h
      rcases h with h | h
      · exact absurd h.symm hp
      · simp [storeInsert, hp, ih h]

theorem keys_insert_of_not_mem (s : List (String × Entry α)) (k : String) (e : Entry α)
    (h : k ∉ s.map Prod.fst) :
    (storeInsert s k e).map Prod.fst = s.map Prod.fst ++ [k] := by
  induction s with
  | nil => simp [storeInsert]
  | cons p rest ih =>
    simp only [List.map_cons, List.mem_cons] at h
    push_neg at h
    have hp : ¬ p.1 = k := fun hk => h.1 hk.symm
    simp [storeInsert, hp, ih h.2]

theorem length_insert_of_mem (s : List (String × Entry α)) (k : String) (e : Entry α)
    (h : k ∈ s.map Prod.fst) : (storeInsert s k e).length = s.length := by
  have := congrArg List.length (keys_insert_of_mem s k e h)
  simpa using this

theorem length_insert_of_not_mem (s : List (String × Entry α)) (k : String) (e : Entry α)
    (h : k ∉ s.map Prod.fst) : (storeInsert s k e).length = s.length + 1 := by
  have := congrArg List.length (keys_insert_of_not_mem s k e h)
  simpa using this

theorem length_insert_le (s : List (String × Entry α)) (k : String) (e : Entry α) :
    (storeInsert s k e).length ≤ s.length + 1 := by
  by_cases h : k ∈ s.map Prod.fst
  · rw [length_insert_of_mem s k e h]; omega
  · rw [length_insert_of_not_mem s k e h]

theorem mem_insert (s : List (String × Entry α)) (k : String) (e : Entry α) (p : String × Entry α)
    (h : p ∈ storeInsert s k e) : p = (k, e) ∨ p ∈ s := by
  induction s with
  | nil =>
    simp only [storeInsert, List.mem_singleton] at h
    exact Or.inl h
  | cons q rest ih =>
    obtain ⟨qk, qe⟩ := q
    by_cases hq : qk = k
    · rw [storeInsert, if_pos hq] at h
      rcases List.mem_cons.1 h with h1 | h1
      · exact Or.inl h1
      · exact Or.inr (List.mem_cons_of_mem _ h1)
    · rw [storeInsert, if_neg hq] at h
      rcases List.mem_cons.1 h with h1 | h1
      · exact Or.inr (h1 ▸ List.mem_cons_self _ _)
      · rcases ih h1 with h2 | h2
        · exact Or.inl h2
        · exact Or.inr (List.mem_cons_of_mem _ h2)

theorem nodup_keys_insert (s : List (String × Entry α)) (k : String) (e : Entry α)
    (h : (s.map Prod.fst).Nodup) : ((storeInsert s k e).map Prod.fst).Nodup := by
  by_cases hm : k ∈ s.map Prod.fst
  · rw [keys_insert_of_mem s k e hm]; exact h
  · rw [keys_insert_of_not_mem s k e hm]
    refine List.nodup_append.2 ⟨h, List.nodup_singleton k, ?_⟩
    intro a ha hb
    rw [List.mem_singleton] at hb
    exact hm (hb ▸ ha)

theorem storeDelete_sublist (s : List (String × Entry α)) (k : String) :
    (storeDelete s k).Sublist s := by
  induction s with
  | nil => simp [storeDelete]
  | cons p rest ih =>
    obtain ⟨pk, pe⟩ := p
    by_cases hp : pk = k
    · rw [storeDelete, if_pos hp]
      exact List.sublist_cons_self _ _
    · rw [storeDelete, if_neg hp]
      exact ih.cons₂ _

theorem mem_of_mem_storeDelete (s : List (String × Entry α)) (k : String) (p : String × Entry α)
    (h : p ∈ storeDelete s k) : p ∈ s :=
  (storeDelete_sublist s k).mem h

theorem storeLookup_delete_other (s : List (String × Entry α)) (k k' : String)
    (h : k' ≠ k) : storeLookup (storeDelete s k) k' = storeLookup s k' := by
  have hne : ¬ k = k' := fun hk => h hk.symm
  induction s with
  | nil => simp [storeDelete]
  | cons p rest ih =>
    by_cases hp : p.1 = k
    · simp [storeDelete, storeLookup, hp, hne]
    · by_cases hp' : p.1 = k'
      · simp [storeDelete, storeLookup, hp, hp', h, hne]
      · simp [storeDelete, storeLookup, hp, hp', ih]

theorem storeLookup_delete_self (s : List (String × Entry α)) (k : String)
    (h : (s.map Prod.fst).Nodup) : storeLookup (storeDelete s k) k = none := by
  induction s with
  | nil => simp [storeDelete]
  | cons p rest ih =>
    simp only [List.map_cons, List.nodup_cons] at h
    by_cases hp : p.1 = k
    · rw [storeDelete, if_pos hp]
      exact (storeLookup_eq_none_iff rest k).2 (hp ▸ h.1)
    · rw [storeDelete, if_neg hp, storeLookup, if_neg hp]
      exact ih h.2

theorem length_delete_of_mem (s : List (String × Entry α)) (k : String)
    (h : k ∈ s.map Prod.fst) : (storeDelete s k).length + 1 = s.length := by
  induction s with
  | nil => simp at h
  | cons p rest ih =>
    by_cases hp : p.1 = k
    · simp [storeDelete, hp]
    · simp only [List.map_cons, List.mem_cons] at h
      rcases h with h | h
      · exact absurd h.symm hp
      · have := ih h
        simp only [storeDelete, if_neg hp, List.length_cons]
        omega

/-! ### The eviction scan -/

theorem scanOldest_spec (s : List (String × Entry α)) (m : Int) (k0 : String) :
    (scanOldest (m, k0) s = (m, k0) ∧ ∀ p ∈ s, m ≤ p.2.time) ∨
    (∃ e, ((scanOldest (m, k0) s).2, e) ∈ s ∧ e.time = (scanOldest (m, k0) s).1 ∧
      (scanOldest (m, k0) s).1 < m ∧ ∀ p ∈ s, (scanOldest (m, k0) s).1 ≤ p.2.time) := by
  induction s generalizing m k0 with
  | nil => exact Or.inl ⟨rfl, by simp⟩
  | cons q rest ih =>
    obtain ⟨qk, qv⟩ := q
    by_cases hlt : qv.time < m
    · rw [scanOldest, if_pos hlt]
      rcases ih qv.time qk with ⟨heq, hall⟩ | ⟨e, hmem, htime, hm, hall⟩
      · refine Or.inr ⟨qv, ?_, ?_, ?_, ?_⟩
        · rw [heq]; exact List.mem_cons_self _ _
        · rw [heq]
        · rw [heq]; exact hlt
        · intro p hp
          rw [heq]
          rcases List.mem_cons.1 hp with hp | hp
          · rw [hp]
          · exact hall p hp
      · refine Or.inr ⟨e, List.mem_cons_of_mem _ hmem, htime, lt_trans hm hlt, ?_⟩
        intro p hp
        rcases List.mem_cons.1 hp with hp | hp
        · rw [hp]; exact le_of_lt hm
        · exact hall p hp
    · rw [scanOldest, if_neg hlt]
      push_neg at hlt
      rcases ih m k0 with ⟨heq, hall⟩ | ⟨e, hmem, htime, hm, hall⟩
      · refine Or.inl ⟨heq, ?_⟩
        intro p hp
        rcases List.mem_cons.1 hp with hp | hp
        · rw [hp]; exact hlt
        · exact hall p hp
      · refine Or.inr ⟨e, List.mem_cons_of_mem _ hmem, htime, hm, ?_⟩
        intro p hp
        rcases List.mem_cons.1 hp with hp | hp
        · rw [hp]; exact le_of_lt (lt_of_lt_of_le hm hlt)
        · exact hall p hp

/-- When every stored timestamp is strictly before `now` and the table is not
empty, the scan of `evictLRU` lands on a key actually stored in the table,
whose entry has the minimal timestamp, and `evictLRU` deletes that key. -/
theorem evictLRU_spec (c : Cache α) (now : Int) (hne : c.store ≠ [])
    (hts : ∀ p ∈ c.store, p.2.time < now) :
    ∃ r e, (r, e) ∈ c.store ∧ (∀ p ∈ c.store, e.time ≤ p.2.time) ∧
      (c.evictLRU now).store = storeDelete c.store r := by
  rcases scanOldest_spec c.store now "" with ⟨_, hall⟩ | ⟨e, hmem, htime, _, hall⟩
  · obtain ⟨p, hp⟩ := List.exists_mem_of_ne_nil c.store hne
    exact absurd (hall p hp) (not_le.2 (hts p hp))
  · refine ⟨(scanOldest (now, "") c.store).2, e, hmem, ?_, rfl⟩
    intro p hp
    rw [htime]
    exact hall p hp

/-! ### Lemmas about `Set` -/

theorem set_size (c : Cache α) (k : String) (v : α) (now : Int) :
    (c.set k v now).size = c.size := by
  rw [Cache.set]
  by_cases h : (c.store.length : Int) = c.size <;> simp [h, Cache.evictLRU]

theorem set_ttl (c : Cache α) (k : String) (v : α) (now : Int) :
    (c.set k v now).ttl = c.ttl := by
  rw [Cache.set]
  by_cases h : (c.store.length : Int) = c.size <;> simp [h, Cache.evictLRU]

theorem set_store (c : Cache α) (k : String) (v : α) (now : Int) :
    (c.set k v now).store =
      if (c.store.length : Int) = c.size
      then storeInsert (c.evictLRU now).store k { value := v, time := now }
      else storeInsert c.store k { value := v, time := now } := by
  rw [Cache.set]
  by_cases h : (c.store.length : Int) = c.size <;> simp [h]

theorem mem_of_mem_evictLRU (c : Cache α) (now : Int) (p : String × Entry α)
    (h : p ∈ (c.evictLRU now).store) : p ∈ c.store :=
  mem_of_mem_storeDelete _ _ _ h

theorem nodup_keys_delete (s : List (String × Entry α)) (k : String)
    (h : (s.map Prod.fst).Nodup) : ((storeDelete s k).map Prod.fst).Nodup :=
  ((storeDelete_sublist s k).map Prod.fst).nodup h

theorem set_nodup_keys (c : Cache α) (k : String) (v : α) (now : Int)
    (h : c.keys.Nodup) : (c.set k v now).keys.Nodup := by
  rw [Cache.keys, set_store]
  by_cases hcap : (c.store.length : Int) = c.size
  · rw [if_pos hcap]
    exact nodup_keys_insert _ _ _ (nodup_keys_delete _ _ h)
  · rw [if_neg hcap]
    exact nodup_keys_insert _ _ _ h

/-- After `Set(key, value)` at clock reading `now`, the key holds exactly the
entry `{value, now}`, whatever branch `Set` took. -/
theorem getEntry_set_self (c : Cache α) (k : String) (v : α) (now : Int) :
    (c.set k v now).getEntry k = some { value := v, time := now } := by
  rw [Cache.getEntry, set_store]
  by_cases hcap : (c.store.length : Int) = c.size
  · rw [if_pos hcap]; exact storeLookup_insert_self _ _ _
  · rw [if_neg hcap]; exact storeLookup_insert_self _ _ _

theorem get_eq_getEntry (c : Cache α) (k : String) :
    c.get k = (c.getEntry k).map Entry.value := by
  rw [Cache.get, Cache.getS, Cache.getEntry]
  rcases storeLookup c.store k with _ | e <;> rfl

/-- The inductive invariant of a cache at clock reading `t`: the table is
within capacity and every stored timestamp is at most `t`. -/
def Inv (c : Cache α) (t : Int) : Prop :=
  (c.store.length : Int) ≤ c.size ∧ ∀ p ∈ c.store, p.2.time ≤ t

theorem Inv_set (c : Cache α) (k : String) (v : α) (t t' : Int)
    (hsz : 0 < c.size) (hinv : Inv c t) (hlt : t < t') : Inv (c.set k v t') t' := by
  obtain ⟨hlen, hts⟩ := hinv
  have hts' : ∀ p ∈ c.store, p.2.time < t' := fun p hp => lt_of_le_of_lt (hts p hp) hlt
  constructor
  · rw [set_size, set_store]
    by_cases hcap : (c.store.length : Int) = c.size
    · rw [if_pos hcap]
      have hlenpos : 0 < c.store.length := by omega
      obtain ⟨r, e, hmem, _, hdel⟩ := evictLRU_spec c t' (List.length_pos.1 hlenpos) hts'
      have hrk : r ∈ c.store.map Prod.fst := List.mem_map_of_mem Prod.fst hmem
      have h1 := length_delete_of_mem c.store r hrk
      have h2 := length_insert_le (storeDelete c.store r) k { value := v, time := t' }
      rw [hdel]
      omega
    · rw [if_neg hcap]
      have h2 := length_insert_le c.store k { value := v, time := t' }
      omega
  · intro p hp
    rw [set_store] at hp
    by_cases hcap : (c.store.length : Int) = c.size
    · rw [if_pos hcap] at hp
      rcases mem_insert _ _ _ _ hp with h | h
      · rw [h]
      · exact le_of_lt (hts' p (mem_of_mem_evictLRU c t' p h))
    · rw [if_neg hcap] at hp
      rcases mem_insert _ _ _ _ hp with h | h
      · rw [h]
      · exact le_of_lt (hts' p h)

theorem runSets_inv (ops : List (String × α × Int)) :
    ∀ (c : Cache α) (t : Int), 0 < c.size → Inv c t →
      List.Chain (fun a b => a < b) t (ops.map (fun op => op.2.2)) →
      ∀ p q, ops = p ++ q → ((runSets c p).store.length : Int) ≤ c.size := by
  induction ops with
  | nil =>
    intro c t hsz hinv _ p q hsplit
    have hp : p = [] := by
      cases p with
      | nil => rfl
      | cons a l => simp at hsplit
    subst hp
    exact hinv.1
  | cons op rest ih =>
    intro c t hsz hinv hchain p q hsplit
    rcases List.chain_cons.1 (by simpa using hchain) with ⟨hlt, hchain'⟩
    cases p with
    | nil => exact hinv.1
    | cons p0 ptail =>
      rw [List.cons_append] at hsplit
      injection hsplit with h1 h2
      subst h1
      have hinv' := Inv_set c op.1 op.2.1 t op.2.2 hsz hinv hlt
      have hsz' : 0 < (c.set op.1 op.2.1 op.2.2).size := by rw [set_size]; exact hsz
      have hrun := ih (c.set op.1 op.2.1 op.2.2) op.2.2 hsz' hinv' hchain' ptail q h2
      rw [set_size] at hrun
      exact hrun

theorem New_ok (size ttl : Int) (c : Cache α) (h : New size ttl = Except.ok c) :
    0 < size ∧ 0 < ttl ∧ c = { store := [], size := size, ttl := ttl } := by
  rw [New] at h
  by_cases hs : size ≤ 0
  · rw [if_pos hs] at h; exact absurd h (by simp)
  · rw [if_neg hs] at h
    by_cases ht : ttl ≤ 0
    · rw [if_pos ht] at h; exact absurd h (by simp)
    · rw [if_neg ht] at h
      refine ⟨by omega, by omega, ?_⟩
      exact (Except.ok.injEq _ _ ▸ h).symm

/-! ### Claim theorems -/

/-- C1: For every cache created by `New(capacity, ttl)` with capacity > 0, and
for every finite sequence of `Set` calls whose clock readings strictly
increase, after each `Set` returns (i.e. after every contiguous initial
segment `p` of the call sequence) the number of entries in the table is at
most the capacity. -/
theorem setSequence_capacity_invariant (size ttl : Int) (c : Cache α)
    (ops p q : List (String × α × Int))
    (hnew : New size ttl = Except.ok c)
    (hchain : List.Chain' (fun a b => a.2.2 < b.2.2) ops)
    (hsplit : ops = p ++ q) :
    ((runSets c p).store.length : Int) ≤ size := by
  obtain ⟨hsz, _, hc⟩ := New_ok size ttl c hnew
  subst hc
  cases ops with
  | nil =>
    have hp : p = [] := by
      cases p with
      | nil => rfl
      | cons a l => simp at hsplit
    subst hp
    simpa [runSets] using le_of_lt hsz
  | cons op rest =>
    have hchainmap : List.Chain' (fun a b => a < b)
        ((op :: rest).map (fun x => x.2.2)) := by
      rw [List.chain'_map]
      exact hchain
    have hchain2 : List.Chain (fun a b => a < b) (op.2.2 - 1)
        ((op :: rest).map (fun x => x.2.2)) := by
      rw [List.map_cons]
      exact List.chain_cons.2 ⟨by omega, by
        have := hchainmap
        rw [List.map_cons] at this
        exact this⟩
    exact runSets_inv (op :: rest)
      { store := [], size := size, ttl := ttl } (op.2.2 - 1) hsz
      ⟨by simpa using le_of_lt hsz, by simp⟩ hchain2 p q hsplit

/-- C1 witness: a concrete cache of capacity 1 stays within capacity after
each of two `Set` calls. -/
theorem setSequence_capacity_invariant_witness :
    ((runSets { store := [], size := 1, ttl := 5 }
        [("a", (3 : Int), 1)]).store.length : Int) ≤ 1 :=
  setSequence_capacity_invariant 1 5 { store := [], size := 1, ttl := 5 }
    [("a", (3 : Int), 1), ("b", 4, 2)] [("a", 3, 1)] [("b", 4, 2)]
    (by rfl) (List.chain'_cons.2 ⟨by decide, List.chain'_singleton _⟩) rfl

/-- C7: `New(capacity, ttl)` returns an error exactly when capacity ≤ 0 or
ttl ≤ 0; on success the returned cache has an empty table and carries the
given capacity and ttl.  (The `go cache.ttlEnforcer(ctx)` statement of the
source sits after both validation returns, so no background task exists on
the error path.) -/
theorem New_validation (size ttl : Int) :
    ((∃ msg, New (α := α) size ttl = Except.error msg) ↔ size ≤ 0 ∨ ttl ≤ 0) ∧
    (∀ c : Cache α, New size ttl = Except.ok c →
      c.store = [] ∧ c.size = size ∧ c.ttl = ttl) := by
  constructor
  · constructor
    · rintro ⟨msg, hmsg⟩
      by_contra hcon
      push_neg at hcon
      rw [New, if_neg (by omega), if_neg (by omega)] at hmsg
      exact absurd hmsg (by simp)
    · intro h
      rw [New]
      by_cases hs : size ≤ 0
      · exact ⟨_, by rw [if_pos hs]⟩
      · rw [if_neg hs]
        have ht : ttl ≤ 0 := by rcases h with h | h; omega; exact h
        exact ⟨_, by rw [if_pos ht]⟩
  · intro c hc
    obtain ⟨_, _, rfl⟩ := New_ok size ttl c hc
    exact ⟨rfl, rfl, rfl⟩

/-- C7 witness: `New 2 3` succeeds with an empty table, and the theorem
applied to it confirms the success shape. -/
theorem New_validation_witness :
    ({ store := [], size := 2, ttl := 3 } : Cache Int).store = [] ∧
      ({ store := [], size := 2, ttl := 3 } : Cache Int).size = 2 ∧
      ({ store := [], size := 2, ttl := 3 } : Cache Int).ttl = 3 :=
  (New_validation (α := Int) 2 3).2 { store := [], size := 2, ttl := 3 } (by rfl)

/-- C8: immediately after `Set(k, v)`, `Get(k)` returns the value `v`; and
`Get(k)` returns the miss result exactly when `k` is absent from the table
(i.e. not among `Keys()`), for whatever reason it is absent. -/
theorem set_get_roundtrip (c : Cache α) (k : String) (v : α) (now : Int) :
    (c.set k v now).get k = some v ∧ (c.get k = none ↔ k ∉ c.keys) := by
  constructor
  · rw [get_eq_getEntry, getEntry_set_self]
    rfl
  · rw [get_eq_getEntry, Cache.getEntry, Cache.keys]
    constructor
    · intro h
      rcases he : storeLookup c.store k with _ | e
      · exact (storeLookup_eq_none_iff c.store k).1 he
      · rw [he] at h; simp at h
    · intro h
      rw [(storeLookup_eq_none_iff c.store k).2 h]
      rfl

/-- C6: `Get` has no side effect on the cache: a single `Get` hands back the
cache unchanged, and so does any finite sequence of `Get` calls — every
entry's value and timestamp, and hence every eviction priority, is exactly
as it was. -/
theorem get_no_side_effects (c : Cache α) (k : String) (ks : List String) :
    (c.getS k).2 = c ∧ runGets c ks = c := by
  have hone : ∀ (c' : Cache α) (k' : String), (c'.getS k').2 = c' := by
    intro c' k'
    rw [Cache.getS]
    rcases storeLookup c'.store k' with _ | e <;> rfl
  refine ⟨hone c k, ?_⟩
  induction ks generalizing c with
  | nil => rfl
  | cons k0 rest ih =>
    rw [runGets, hone c k0]
    exact ih c

/-- C5: a single sweep pass at clock reading `now` keeps exactly the entries
whose age does not exceed ttl: an entry is in the table after `evictExpired`
iff it was there before and `now - time > ttl` does not hold. -/
theorem evictExpired_removes_exactly_expired (c : Cache α) (now : Int)
    (k : String) (e : Entry α) :
    (k, e) ∈ (c.evictExpired now).store ↔
      ((k, e) ∈ c.store ∧ ¬(now - e.time > c.ttl)) := by
  rw [Cache.evictExpired]
  simp [List.mem_filter]

/-- C9: a sweep pass retains an entry whose age is exactly `ttl`, since
removal requires `now - time > ttl` strictly. -/
theorem evictExpired_keeps_boundary (c : Cache α) (now : Int) (k : String) (e : Entry α)
    (hmem : (k, e) ∈ c.store) (hb : now - e.time = c.ttl) :
    (k, e) ∈ (c.evictExpired now).store := by
  rw [Cache.evictExpired]
  refine List.mem_filter.2 ⟨hmem, ?_⟩
  simp [hb]

/-- C9 witness: an entry aged exactly ttl = 4 at `now = 7` survives the
sweep. -/
theorem evictExpired_keeps_boundary_witness :
    ("a", ({ value := 5, time := 3 } : Entry Int)) ∈ (cacheBoundary.evictExpired 7).store :=
  evictExpired_keeps_boundary cacheBoundary 7 "a" _ (by decide) (by decide)

/-- C4: the `ttlEnforcer` loop arms `time.NewTimer(c.ttl)` once and never
resets it, so over any number of loop iterations at most one sweep ever
executes — the sweeper is one-shot, not periodic. -/
theorem ttlEnforcer_at_most_one_sweep (n : Nat) : ttlEnforcerRun true n ≤ 1 := by
  have hspent : ∀ m, ttlEnforcerRun false m = 0 := by
    intro m
    induction m with
    | zero => rfl
    | succ m ih => rw [ttlEnforcerRun]; exact ih
  cases n with
  | zero => exact Nat.zero_le 1
  | succ n =>
    rw [ttlEnforcerRun, hspent n]

/-- C10: below capacity, `Set(k, v)` changes no entry of any other key; at
capacity, at most the one key selected by the eviction scan is removed and
every other key's entry (value and timestamp) is unchanged. -/
theorem set_frame (c : Cache α) (k : String) (v : α) (now : Int) :
    (((c.store.length : Int) < c.size) →
      ∀ k', k' ≠ k → (c.set k v now).getEntry k' = c.getEntry k') ∧
    (((c.store.length : Int) = c.size) →
      ∃ r, ∀ k', k' ≠ k → k' ≠ r → (c.set k v now).getEntry k' = c.getEntry k') := by
  constructor
  · intro hlt k' hk
    rw [Cache.getEntry, Cache.getEntry, set_store, if_neg (by omega)]
    exact storeLookup_insert_other _ _ _ _ hk
  · intro hcap
    refine ⟨(scanOldest (now, "") c.store).2, ?_⟩
    intro k' hk hr
    have hdel : (c.evictLRU now).store =
        storeDelete c.store (scanOldest (now, "") c.store).2 := rfl
    rw [Cache.getEntry, Cache.getEntry, set_store, if_pos hcap,
      storeLookup_insert_other _ _ _ _ hk, hdel]
    exact storeLookup_delete_other _ _ _ hr

/-- C10 witness: below capacity the entry of "a" is untouched by
`Set("b", 5)`; at capacity some single key is exempted and all other keys
keep their entries. -/
theorem set_frame_witness :
    ((cacheA.set "b" 5 3).getEntry "a" = cacheA.getEntry "a") ∧
    (∃ r, ∀ k', k' ≠ "c" → k' ≠ r →
      (cacheAB.set "c" 5 3).getEntry k' = cacheAB.getEntry k') :=
  ⟨(set_frame cacheA "b" 5 3).1 (by decide) "a" (by decide),
   (set_frame cacheAB "c" 5 3).2 (by decide)⟩

/-- C2: on a table at capacity holding distinct keys all written strictly
before `now`, a `Set` of a fresh key removes exactly one existing entry — one
with the minimal (oldest) write timestamp — keeps the entry count at
capacity, stores the new key, and leaves every other previously stored key
retrievable with its old answer. -/
theorem set_at_capacity_evicts_oldest (c : Cache α) (k : String) (v : α) (now : Int)
    (hsz : 0 < c.size)
    (hfull : (c.store.length : Int) = c.size)
    (hnotmem : k ∉ c.keys)
    (hts : ∀ p ∈ c.store, p.2.time < now)
    (hnd : c.keys.Nodup) :
    ∃ r e, (r, e) ∈ c.store ∧ (∀ p ∈ c.store, e.time ≤ p.2.time) ∧
      (c.set k v now).store.length = c.store.length ∧
      (c.set k v now).get r = none ∧
      (c.set k v now).get k = some v ∧
      ∀ k' ∈ c.keys, k' ≠ r → (c.set k v now).get k' = c.get k' := by
  have hne : c.store ≠ [] := by
    have hpos : 0 < c.store.length := by omega
    exact List.length_pos.1 hpos
  obtain ⟨r, e, hmem, hmin, hdel⟩ := evictLRU_spec c now hne hts
  have hrk : r ∈ c.store.map Prod.fst := List.mem_map_of_mem Prod.fst hmem
  have hrnotk : r ≠ k := by
    intro hrkk
    exact hnotmem (hrkk ▸ hrk)
  have hstore : (c.set k v now).store =
      storeInsert (storeDelete c.store r) k { value := v, time := now } := by
    rw [set_store, if_pos hfull, hdel]
  refine ⟨r, e, hmem, hmin, ?_, ?_, ?_, ?_⟩
  · rw [hstore]
    have h1 := length_delete_of_mem c.store r hrk
    have hkdel : k ∉ (storeDelete c.store r).map Prod.fst := by
      intro hk
      exact hnotmem (((storeDelete_sublist c.store r).map Prod.fst).mem hk)
    have h2 := length_insert_of_not_mem (storeDelete c.store r) k
      { value := v, time := now } hkdel
    omega
  · rw [get_eq_getEntry, Cache.getEntry, hstore,
      storeLookup_insert_other _ _ _ _ hrnotk, storeLookup_delete_self _ _ hnd]
    rfl
  · rw [get_eq_getEntry, getEntry_set_self]
    rfl
  · intro k' hk' hkr
    have hk'k : k' ≠ k := fun h => hnotmem (h ▸ hk')
    rw [get_eq_getEntry, get_eq_getEntry, Cache.getEntry, Cache.getEntry, hstore,
      storeLookup_insert_other _ _ _ _ hk'k, storeLookup_delete_other _ _ _ hkr]

/-- C2 witness: capacity-2 table `{a ↦ (7, t=0), b ↦ (8, t=1)}`; setting the
fresh key "c" at `now = 2` evicts one minimal-timestamp key and the stated
conclusion holds. -/
theorem set_at_capacity_evicts_oldest_witness :
    ∃ r e, (r, e) ∈ cacheFull.store ∧
      (∀ p ∈ cacheFull.store, e.time ≤ p.2.time) ∧
      (cacheFull.set "c" 9 2).store.length = cacheFull.store.length ∧
      (cacheFull.set "c" 9 2).get r = none ∧
      (cacheFull.set "c" 9 2).get "c" = some 9 ∧
      ∀ k' ∈ cacheFull.keys, k' ≠ r →
        (cacheFull.set "c" 9 2).get k' = cacheFull.get k' :=
  set_at_capacity_evicts_oldest cacheFull "c" 9 2 (by decide) (by decide) (by decide)
    (by decide) (by decide)

/-- C3 counterexample: with capacity 2 and the table `{a, k}` at capacity,
`Set("k", v1)` then `Set("k", v2)` — an overwrite of the existing key "k" —
triggers an eviction: "a" disappears and the entry count drops from 2 to 1,
refuting "the total entry count is unaffected by the overwrite" and
"overwriting an existing key does not trigger an eviction". -/
theorem overwrite_at_capacity_evicts :
    (New (α := Int) 2 100 = Except.ok cacheEmptyTwo) ∧
    ((cacheEmptyTwo.set "a" 7 0).set "k" 1 1).store.length = 2 ∧
    ((cacheEmptyTwo.set "a" 7 0).set "k" 1 1).get "a" = some 7 ∧
    (((cacheEmptyTwo.set "a" 7 0).set "k" 1 1).set "k" 2 2).store.length = 1 ∧
    (((cacheEmptyTwo.set "a" 7 0).set "k" 1 1).set "k" 2 2).get "a" = none := by
  refine ⟨by rfl, ?_, ?_, ?_, ?_⟩ <;> decide

/-- C3 (amended): `Set(k, v1)` followed by `Set(k, v2)` leaves exactly one
entry for `k`, holding `v2` with timestamp exactly the second call's clock
reading; and provided the table is strictly below capacity when the
overwrite runs, the total entry count is unaffected by the overwrite and no
other entry is evicted or changed.  (At capacity, `Set` first evicts the
oldest entry even when the key is already present — see the
counterexample.) -/
theorem overwrite_below_capacity (c : Cache α) (k : String) (v1 v2 : α) (t1 t2 : Int)
    (hnd : c.keys.Nodup)
    (hbelow : ((c.set k v1 t1).store.length : Int) < (c.set k v1 t1).size) :
    ((c.set k v1 t1).set k v2 t2).getEntry k = some { value := v2, time := t2 } ∧
    ((c.set k v1 t1).set k v2 t2).store.length = (c.set k v1 t1).store.length ∧
    ((c.set k v1 t1).set k v2 t2).keys.count k = 1 ∧
    ∀ k', k' ≠ k → ((c.set k v1 t1).set k v2 t2).getEntry k' = (c.set k v1 t1).getEntry k' := by
  have hkmem : k ∈ (c.set k v1 t1).store.map Prod.fst := by
    by_contra hk
    have hnone := (storeLookup_eq_none_iff (c.set k v1 t1).store k).2 hk
    have hsome := getEntry_set_self c k v1 t1
    rw [Cache.getEntry] at hsome
    rw [hnone] at hsome
    exact absurd hsome (by simp)
  have hstore2 : ((c.set k v1 t1).set k v2 t2).store =
      storeInsert (c.set k v1 t1).store k { value := v2, time := t2 } := by
    rw [set_store, if_neg (by omega)]
  refine ⟨getEntry_set_self _ k v2 t2, ?_, ?_, ?_⟩
  · rw [hstore2]
    exact length_insert_of_mem _ _ _ hkmem
  · have hnd1 : ((c.set k v1 t1).store.map Prod.fst).Nodup := set_nodup_keys c k v1 t1 hnd
    rw [Cache.keys, hstore2, keys_insert_of_mem _ _ _ hkmem]
    exact List.count_eq_one_of_mem hnd1 hkmem
  · intro k' hk'
    rw [Cache.getEntry, Cache.getEntry, hstore2]
    exact storeLookup_insert_other _ _ _ _ hk'

/-- C3 witness for the amended statement: starting from an empty capacity-2
cache, `Set("k", 1)` then `Set("k", 2)` below capacity behaves as stated. -/
theorem overwrite_below_capacity_witness :
    ((cacheEmptyTwo.set "k" 1 0).set "k" 2 1).getEntry "k" = some { value := 2, time := 1 } ∧
    ((cacheEmptyTwo.set "k" 1 0).set "k" 2 1).store.length =
      (cacheEmptyTwo.set "k" 1 0).store.length ∧
    ((cacheEmptyTwo.set "k" 1 0).set "k" 2 1).keys.count "k" = 1 ∧
    ∀ k', k' ≠ "k" →
      ((cacheEmptyTwo.set "k" 1 0).set "k" 2 1).getEntry k' =
        (cacheEmptyTwo.set "k" 1 0).getEntry k' :=
  overwrite_below_capacity cacheEmptyTwo "k" 1 2 0 1 (by decide) (by decide)

end Cacher
